import Mathlib

/-!
Verification of the per-session reliable-datagram `Channel` of cwa-server
(`src/protocol/mod.rs`), shallowly embedded in Lean.  16-bit sequence
numbers are represented as `Nat` values below 65536 with explicit
`% 65536` wrap arithmetic.  The wire codec, fragmentation helpers and the
bundling codec live in source files that are not part of the sources here;
where a claim depends on them they are modelled from the specification and
marked as such.
-/

set_option maxRecDepth 16384

namespace Cwa

/-- Bytes of a payload (`Vec<u8>` in the source); each entry is a byte value. -/
abbrev Bytes := List Nat

/-- `u16::wrapping_add` on values below 65536. -/
def wrapAdd (a b : Nat) : Nat := (a + b) % 65536

/-- `u16::wrapping_sub` on values below 65536. -/
def wrapSub (a b : Nat) : Nat := (a + 65536 - b) % 65536

/-- `Session` from `src/protocol/mod.rs`. -/
structure Session where
  session_id : Nat
  crc_length : Nat
  crc_seed : Nat
  allow_compression : Bool
  use_encryption : Bool
deriving DecidableEq, Repr

/-- `Packet` from `src/protocol/mod.rs`.  The telemetry fields of the
`NetStatus` variants are kept as plain numbers. -/
inductive Packet where
  | SessionRequest (protocol_version session_id buffer_size : Nat)
      (app_protocol : String)
  | SessionReply (session_id crc_seed crc_length : Nat)
      (allow_compression use_encryption : Bool) (buffer_size protocol_version : Nat)
  | Disconnect (session_id reason : Nat)
  | Heartbeat
  | NetStatusRequest (f1 f2 f3 f4 f5 f6 f7 f8 f9 : Nat)
  | NetStatusReply (f1 f2 f3 f4 f5 f6 f7 : Nat)
  | Data (seq : Nat) (payload : Bytes)
  | DataFragment (seq : Nat) (payload : Bytes)
  | Ack (seq : Nat)
  | AckAll (seq : Nat)
  | UnknownSender
  | RemapConnection (session_id crc_seed : Nat)
deriving DecidableEq, Repr

/-- `Packet::sequence_number`: only `Data` and `DataFragment` are sequenced. -/
def Packet.sequence_number : Packet → Option Nat
  | .Data n _ => some n
  | .DataFragment n _ => some n
  | _ => none

/-- Well-formedness of the `u16` sequence field: in the Rust source the
sequence number has type `u16`, so it is below 65536. -/
def Packet.wf (p : Packet) : Bool :=
  match p.sequence_number with
  | some s => decide (s < 65536)
  | none => true

/-- `PendingPacket` from `src/protocol/mod.rs`. -/
structure PendingPacket where
  needs_send : Bool
  packet : Packet
deriving DecidableEq, Repr

/-- `PendingPacket::new`. -/
def PendingPacket.new (p : Packet) : PendingPacket := ⟨true, p⟩

/-- Modelled from the spec: the fragment reassembler buffer of
`reliable_data_ops.rs` (not among the sources), §3 of the spec:
`{ total_size, collected, first_seq }`. -/
structure FragmentBuffer where
  total_size : Nat
  collected : Bytes
  first_seq : Nat
deriving DecidableEq, Repr

/-- `fragment_state`: `None`, or a growing buffer. -/
abbrev FragmentState := Option FragmentBuffer

/-- Modelled from the spec: fatal reassembly errors of §4.2. -/
inductive FragmentError where
  | FragmentOverflow
  | FragmentInterleaved
deriving DecidableEq, Repr

/-- Big-endian `u32` read of the first four bytes. -/
def bytesToU32BE (b : Bytes) : Nat :=
  match b with
  | b0 :: b1 :: b2 :: b3 :: _ => ((b0 * 256 + b1) * 256 + b2) * 256 + b3
  | _ => 0

/-- Modelled from the spec: `FragmentState::add` of `reliable_data_ops.rs`
(not among the sources), §4.2.  A `DataFragment` accumulates (the first
fragment carries a 4-byte big-endian total size); a completed buffer is
emitted as a single `Data`; a `Data` while a fragment is in progress is
`FragmentInterleaved`; every other packet passes through unchanged, which
matches the routing in `process_next` (session requests, heartbeats and
acks reach `process_packet` through this return value). -/
def fragmentAdd (st : FragmentState) (p : Packet) :
    Except FragmentError (Option Packet) × FragmentState :=
  match st, p with
  | none, .DataFragment seq payload =>
      let total := bytesToU32BE (payload.take 4)
      let collected := payload.drop 4
      if collected.length = total then (.ok (some (.Data seq collected)), none)
      else if collected.length > total then (.error .FragmentOverflow, none)
      else (.ok none, some ⟨total, collected, seq⟩)
  | some buf, .DataFragment _ payload =>
      let collected := buf.collected ++ payload
      if collected.length = buf.total_size then
        (.ok (some (.Data buf.first_seq collected)), none)
      else if collected.length > buf.total_size then (.error .FragmentOverflow, none)
      else (.ok none, some ⟨buf.total_size, collected, buf.first_seq⟩)
  | some _, .Data _ _ => (.error .FragmentInterleaved, st)
  | none, .Data seq d => (.ok (some (.Data seq d)), none)
  | st', q => (.ok (some q), st')

/-- Modelled from the spec: the 1-2 byte length field of §6 used by the
bundling codec: one byte `L`; if `L = 0xFF` the next two bytes are a
big-endian length. -/
def readVarLength (b : Bytes) : Option (Nat × Bytes) :=
  match b with
  | [] => none
  | l :: rest =>
      if l < 0xFF then some (l, rest)
      else match rest with
        | a :: c :: rest2 => some (a * 256 + c, rest2)
        | _ => none

/-- Modelled from the spec: the `(length, bytes)` pair list of §4.4, read
with explicit fuel (the byte count bounds the number of pairs). -/
def unbundlePairs : Nat → Bytes → Option (List Bytes)
  | _, [] => some []
  | 0, _ :: _ => none
  | fuel + 1, b :: bs =>
      match readVarLength (b :: bs) with
      | none => none
      | some (len, rest) =>
          if len ≤ rest.length then
            match unbundlePairs fuel (rest.drop len) with
            | some tl => some (rest.take len :: tl)
            | none => none
          else none

/-- Modelled from the spec: `unbundle_reliable_data` of
`reliable_data_ops.rs` (not among the sources), §4.4: a payload beginning
with the sentinel bytes `0x00 0x19` is a bundle of length-prefixed
messages; otherwise it is a single message. -/
def unbundle_reliable_data (d : Bytes) : Option (List Bytes) :=
  match d with
  | 0x00 :: 0x19 :: rest => unbundlePairs rest.length rest
  | _ => some [d]

/-- `DataPacket` from `reliable_data_ops.rs` (declared by its use in
`send_data`). -/
inductive DataPacket where
  | Fragment (data : Bytes)
  | Single (data : Bytes)
deriving DecidableEq, Repr

/-- Big-endian `u32` encoding. -/
def u32BE (n : Nat) : Bytes :=
  [n / 16777216 % 256, n / 65536 % 256, n / 256 % 256, n % 256]

/-- Split a byte list into chunks of `k` bytes, with fuel (the list length
bounds the chunk count when `k ≥ 1`). -/
def chunksOf : Nat → Nat → Bytes → List Bytes
  | _, _, [] => []
  | 0, _, _ :: _ => []
  | fuel + 1, k, l => l.take k :: chunksOf fuel k (l.drop k)

/-- Modelled from the spec: `fragment_data` of `reliable_data_ops.rs` (not
among the sources), §4.3.  The envelope overhead is opcode (2) + sequence
(2) + multi-packet header byte (1) + CRC tail + optional compression flag;
a payload that fits is a single `Data`, otherwise the first fragment
carries the 4-byte big-endian total size and the rest is cut into
capacity-sized chunks (the capacity is kept at least 5 so the cut makes
progress even for degenerate buffer sizes). -/
def fragment_data (buffer_size : Nat) (session : Option Session) (data : Bytes) :
    List DataPacket :=
  let crcLen := match session with | some s => s.crc_length | none => 0
  let compFlag := match session with
    | some s => if s.allow_compression then 1 else 0
    | none => 0
  let overhead := 2 + 2 + 1 + crcLen + compFlag
  if data.length ≤ buffer_size - overhead then [.Single data]
  else
    let cap := max (buffer_size - overhead) 5
    .Fragment (u32BE data.length ++ data.take (cap - 4)) ::
      (chunksOf data.length cap (data.drop (cap - 4))).map .Fragment

/-- `BTreeMap::insert` on an association list: replaces the entry of an
existing key, otherwise appends.  Only `insert`, `remove` and membership
of `reordered_packets` are ever observed, so the iteration order of the
tree is irrelevant. -/
def mapInsert (k : Nat) (v : Packet) : List (Nat × Packet) → List (Nat × Packet)
  | [] => [(k, v)]
  | (k', v') :: rest =>
      if k = k' then (k, v) :: rest else (k', v') :: mapInsert k v rest

/-- `BTreeMap::remove` on an association list: returns the removed value
and the remaining entries. -/
def mapRemove (k : Nat) : List (Nat × Packet) → Option Packet × List (Nat × Packet)
  | [] => (none, [])
  | (k', v') :: rest =>
      if k = k' then (some v', rest)
      else
        let r := mapRemove k rest
        (r.1, (k', v') :: r.2)

/-- `BTreeMap::get` on an association list. -/
def mapLookup (k : Nat) : List (Nat × Packet) → Option Packet
  | [] => none
  | (k', v') :: rest => if k = k' then some v' else mapLookup k rest

/-- `Channel` from `src/protocol/mod.rs`. -/
structure Channel where
  session : Option Session
  buffer_size : Nat
  recency_limit : Nat
  fragment_state : FragmentState
  send_queue : List PendingPacket
  receive_queue : List Packet
  reordered_packets : List (Nat × Packet)
  next_client_sequence : Nat
  next_server_sequence : Nat
  last_client_ack : Nat
  last_server_ack : Nat
deriving DecidableEq, Repr

namespace Channel

/-- `Channel::new`. -/
def new (initial_buffer_size recency_limit : Nat) : Channel where
  session := none
  buffer_size := initial_buffer_size
  recency_limit := recency_limit
  fragment_state := none
  send_queue := []
  receive_queue := []
  reordered_packets := []
  next_client_sequence := 0
  next_server_sequence := 0
  last_client_ack := 0
  last_server_ack := 0

/-- `Channel::receive`.  Modelled from the spec at the codec boundary:
`deserialize_packet` (in `deserialize.rs`, not among the sources) parses a
datagram into packets; `receive` appends them to `receive_queue` and
returns their count. -/
def receive (ch : Channel) (packets : List Packet) : Nat × Channel :=
  (packets.length, { ch with receive_queue := ch.receive_queue ++ packets })

/-- `Channel::save_for_reorder`, verbatim from the source: note the strict
comparison against `max_sequence_number` in the wrapped branch. -/
def save_for_reorder (ch : Channel) (sequence_number : Nat) : Bool :=
  let maxS := wrapAdd ch.next_client_sequence ch.recency_limit
  if maxS > ch.next_client_sequence then
    decide (sequence_number ≤ maxS ∧ sequence_number > ch.next_client_sequence)
  else
    decide (sequence_number > ch.next_client_sequence ∨ sequence_number < maxS)

/-- `Channel::should_client_ack` (an associated function in the source). -/
def shouldClientAck (recency_limit next_server_sequence maxU pending : Nat) : Bool :=
  let minS := wrapSub next_server_sequence recency_limit
  if minS < maxU then
    decide (minS ≤ pending ∧ pending ≤ maxU)
  else
    decide (minS ≤ pending ∨ pending ≤ maxU)

/-- `Channel::acknowledge_one`. -/
def acknowledge_one (ch : Channel) (sequence_number : Nat) : Channel :=
  { ch with send_queue := ch.send_queue ++ [PendingPacket.new (.Ack sequence_number)] }

/-- `Channel::acknowledge_all`. -/
def acknowledge_all (ch : Channel) (sequence_number : Nat) : Channel :=
  { ch with send_queue := ch.send_queue ++ [PendingPacket.new (.AckAll sequence_number)] }

/-- `Channel::process_session_request`.  The fresh `crc_seed` drawn from
`rand::random` in the source is passed in as the explicit `seed`
parameter. -/
def process_session_request (ch : Channel)
    (_protocol_version session_id buffer_size : Nat) (_app_protocol : String)
    (seed : Nat) : Channel :=
  let session : Session :=
    { session_id := session_id, crc_length := 3, crc_seed := seed
      allow_compression := false, use_encryption := false }
  { ch with
    buffer_size := buffer_size
    send_queue := ch.send_queue ++
      [PendingPacket.new (.SessionReply session_id session.crc_seed
        session.crc_length session.allow_compression session.use_encryption 512 3)]
    session := some session }

/-- `Channel::process_heartbeat`. -/
def process_heartbeat (ch : Channel) : Channel :=
  { ch with send_queue := ch.send_queue ++ [PendingPacket.new .Heartbeat] }

/-- `Channel::process_ack`. -/
def process_ack (ch : Channel) (acked_sequence : Nat) : Channel :=
  if shouldClientAck ch.recency_limit ch.next_server_sequence
      (wrapSub ch.next_server_sequence 1) acked_sequence then
    { ch with send_queue := ch.send_queue.map (fun pp =>
        match pp.packet.sequence_number with
        | some pending => if acked_sequence = pending then
            { pp with needs_send := false } else pp
        | none => pp) }
  else ch

/-- `Channel::process_ack_all`. -/
def process_ack_all (ch : Channel) (acked_sequence : Nat) : Channel :=
  { ch with send_queue := ch.send_queue.map (fun pp =>
      match pp.packet.sequence_number with
      | some pending =>
          if shouldClientAck ch.recency_limit ch.next_server_sequence
              acked_sequence pending then
            { pp with needs_send := false }
          else pp
      | none => pp) }

/-- `Channel::process_packet`; the `seed` parameter threads the randomness
used by `process_session_request`. -/
def process_packet (ch : Channel) (p : Packet) (seed : Nat) : Channel :=
  match p with
  | .SessionRequest pv sid bs ap => ch.process_session_request pv sid bs ap seed
  | .Heartbeat => ch.process_heartbeat
  | .Ack s => ch.process_ack s
  | .AckAll s => ch.process_ack_all s
  | _ => ch

/-- One dequeue-and-handle iteration of the `for _ in 0..count` loop of
`Channel::process_next`, fuelled by the loop count.  The state threaded
through the loop is the channel together with the `needs_new_ack` flag and
the `packet_to_process` slot of the source. -/
def processLoop : Nat → Channel → Bool → Option Packet →
    Channel × Bool × Option Packet
  | 0, ch, na, ptp => (ch, na, ptp)
  | fuel + 1, ch, na, ptp =>
    match ch.receive_queue with
    | [] => (ch, na, ptp)
    | packet :: rest =>
      let ch1 := { ch with receive_queue := rest }
      match packet.sequence_number with
      | some s =>
        if s ≠ ch1.next_client_sequence then
          let ch2 :=
            if ch1.save_for_reorder s then
              { ch1 with reordered_packets := mapInsert s packet ch1.reordered_packets }
            else ch1
          processLoop fuel (ch2.acknowledge_one s) na ptp
        else
          let ch2 := { ch1 with
            last_server_ack := s
            next_client_sequence := wrapAdd ch1.next_client_sequence 1 }
          let rem := mapRemove ch2.next_client_sequence ch2.reordered_packets
          let ch3 := { ch2 with reordered_packets := rem.2 }
          let ch4 :=
            match rem.1 with
            | some next_packet => { ch3 with receive_queue := next_packet :: ch3.receive_queue }
            | none => ch3
          let fr := fragmentAdd ch4.fragment_state packet
          let ch5 := { ch4 with fragment_state := fr.2 }
          match fr.1 with
          | .ok op => processLoop fuel ch5 true op
          | .error _ => processLoop fuel ch5 true ptp
      | none =>
        let fr := fragmentAdd ch1.fragment_state packet
        let ch2 := { ch1 with fragment_state := fr.2 }
        match fr.1 with
        | .ok op => processLoop fuel ch2 na op
        | .error _ => processLoop fuel ch2 na ptp

/-- `Channel::process_next`.  Returns the unbundled application messages
together with the channel after the call; the `seed` parameter threads the
randomness a session request would consume. -/
def process_next (ch : Channel) (count : Nat) (seed : Nat) : List Bytes × Channel :=
  let st := processLoop count ch false none
  let ch1 := if st.2.1 then st.1.acknowledge_all st.1.last_server_ack else st.1
  match st.2.2 with
  | some p =>
    let ch2 := ch1.process_packet p seed
    match p with
    | .Data _ d =>
      match unbundle_reliable_data d with
      | some unbundled => (unbundled, ch2)
      | none => ([], ch2)
    | _ => ([], ch2)
  | none => ([], ch1)

/-- `Channel::next_server_sequence`: post-increment with 16-bit wrap. -/
def next_server_sequence_fn (ch : Channel) : Nat × Channel :=
  (ch.next_server_sequence,
    { ch with next_server_sequence := wrapAdd ch.next_server_sequence 1 })

/-- The body of the `for packet in packets` loop of `Channel::send_data`:
draw a fresh outbound sequence number and queue the chunk. -/
def sendDataStep (acc : Channel) (packet : DataPacket) : Channel :=
  let sq := acc.next_server_sequence_fn
  let sequenced_packet :=
    match packet with
    | .Fragment d => Packet.DataFragment sq.1 d
    | .Single d => Packet.Data sq.1 d
  { sq.2 with send_queue := sq.2.send_queue ++ [PendingPacket.new sequenced_packet] }

/-- `Channel::send_data`: fragment the payload and queue each chunk with a
fresh outbound sequence number. -/
def send_data (ch : Channel) (data : Bytes) : Channel :=
  (fragment_data ch.buffer_size ch.session data).foldl sendDataStep ch

/-- Marking step of `Channel::send_next`: packets without sequence numbers
are dispatched exactly once, so their `needs_send` flag is cleared when
they are collected. -/
def markDispatched (pp : PendingPacket) : PendingPacket :=
  if pp.packet.sequence_number = none then { pp with needs_send := false } else pp

/-- `Channel::send_next`.  Modelled from the spec at the codec boundary:
`serialize_packets` (in `serialize.rs`, not among the sources) encodes the
collected packets, so the embedding returns the list of packets handed to
the wire codec.  The source first drops acked entries (`retain`), then
collects the first `count` remaining entries, clearing `needs_send` on the
non-sequenced ones among them. -/
def send_next (ch : Channel) (count : Nat) : List Packet × Channel :=
  let retained := ch.send_queue.filter (·.needs_send)
  let k := min count retained.length
  let marked := (retained.take k).map markDispatched ++ retained.drop k
  ((retained.take k).map (·.packet), { ch with send_queue := marked })

end Channel

/-!  Specification-side definitions used to state the claims. -/

/-- The spec's recency window: `s` is recent relative to next-expected `n`
and window `W` when `s` lies in the half-open interval `(n, n + W]` under
16-bit wrap arithmetic, i.e. the wrapped distance from `n` to `s` is
between 1 and `W`. -/
def inRecencyWindow (n W s : Nat) : Bool :=
  decide (1 ≤ wrapSub s n ∧ wrapSub s n ≤ W)

/-- `k` consecutive 16-bit sequence numbers starting at `n` (each obtained
from the previous one by a wrapping increment). -/
def consecutiveSeqs : Nat → Nat → List Nat
  | _, 0 => []
  | n, k + 1 => n :: consecutiveSeqs (wrapAdd n 1) k

/-- Instrumentation of the `process_next` loop: the successive values the
fragment reassembler hands back (`Ok` results only) over a batch, in
order.  Out-of-order packets skip the reassembler and contribute nothing,
exactly as in `processLoop`. -/
def processOutcomes : Nat → Channel → List (Option Packet)
  | 0, _ => []
  | fuel + 1, ch =>
    match ch.receive_queue with
    | [] => []
    | packet :: rest =>
      let ch1 := { ch with receive_queue := rest }
      match packet.sequence_number with
      | some s =>
        if s ≠ ch1.next_client_sequence then
          let ch2 :=
            if ch1.save_for_reorder s then
              { ch1 with reordered_packets := mapInsert s packet ch1.reordered_packets }
            else ch1
          processOutcomes fuel (ch2.acknowledge_one s)
        else
          let ch2 := { ch1 with
            last_server_ack := s
            next_client_sequence := wrapAdd ch1.next_client_sequence 1 }
          let rem := mapRemove ch2.next_client_sequence ch2.reordered_packets
          let ch3 := { ch2 with reordered_packets := rem.2 }
          let ch4 :=
            match rem.1 with
            | some next_packet => { ch3 with receive_queue := next_packet :: ch3.receive_queue }
            | none => ch3
          let fr := fragmentAdd ch4.fragment_state packet
          let ch5 := { ch4 with fragment_state := fr.2 }
          match fr.1 with
          | .ok op => op :: processOutcomes fuel ch5
          | .error _ => processOutcomes fuel ch5
      | none =>
        let fr := fragmentAdd ch1.fragment_state packet
        let ch2 := { ch1 with fragment_state := fr.2 }
        match fr.1 with
        | .ok op => op :: processOutcomes fuel ch2
        | .error _ => processOutcomes fuel ch2

/-- The last of a list of reassembler outcomes (`none` when the batch
produced no outcome at all). -/
def lastOutcome (outs : List (Option Packet)) : Option Packet :=
  outs.foldl (fun _ o => o) none

/-- How many entries of a send queue hold the packet `x` and are still
marked for sending. -/
def countSendable (x : Packet) (q : List PendingPacket) : Nat :=
  ((q.filter (·.needs_send)).map (·.packet)).count x

/-- Everything put on the wire by a sequence of `send_next` calls with the
given counts. -/
def sendNextRun : List Nat → Channel → List Packet
  | [], _ => []
  | c :: cs, ch => (ch.send_next c).1 ++ sendNextRun cs (ch.send_next c).2

/-- The channel reachable through the public operations, starting from
`Channel::new B W`.  `receive` is constrained to well-formed parsed
packets (sequence fields fit in a `u16`), which the Rust types enforce. -/
inductive Reached (B W : Nat) : Channel → Prop where
  | init : Reached B W (Channel.new B W)
  | receive {ch : Channel} (ps : List Packet) (hwf : ∀ p ∈ ps, p.wf = true)
      (h : Reached B W ch) : Reached B W (ch.receive ps).2
  | processNext {ch : Channel} (count seed : Nat)
      (h : Reached B W ch) : Reached B W (ch.process_next count seed).2
  | sendData {ch : Channel} (data : Bytes)
      (h : Reached B W ch) : Reached B W (ch.send_data data)
  | sendNext {ch : Channel} (count : Nat)
      (h : Reached B W ch) : Reached B W (ch.send_next count).2

/-- The inductive invariant behind claim C8: the reorder buffer stores
exactly the key of each stored packet, every stored key is recent and
below 65536, keys are distinct, and all queued inbound packets are
well-formed. -/
def Inv (W : Nat) (ch : Channel) : Prop :=
  ch.recency_limit = W ∧
  ch.next_client_sequence < 65536 ∧
  (∀ pr ∈ ch.reordered_packets,
    pr.2.sequence_number = some pr.1 ∧ pr.1 < 65536 ∧
    inRecencyWindow ch.next_client_sequence W pr.1 = true) ∧
  (ch.reordered_packets.map Prod.fst).Nodup ∧
  (∀ p ∈ ch.receive_queue, p.wf = true)

/-!  Concrete channels for the literal scenarios of the spec. -/

/-- The channel after the S1 handshake: a fresh channel (buffer 512,
recency limit 100) that received and processed
`SessionRequest(3, 0xDEADBEEF, 512, "LoginUdp_9")` with seed 42. -/
def chS1 : Channel :=
  (((Channel.new 512 100).receive
    [.SessionRequest 3 0xDEADBEEF 512 "LoginUdp_9"]).2.process_next 1 42).2

/-- A channel whose reorder buffer already holds sequence 5 and whose
receive queue holds a second arrival for sequence 5 with a different
payload (claim C4). -/
def chDup : Channel :=
  { Channel.new 512 100 with
    reordered_packets := [(5, Packet.Data 5 [65, 66])]
    receive_queue := [Packet.Data 5 [67, 68]] }

/-- A channel with five sequenced packets queued at sequences 10..14
(claim C5, scenario S5); `next_server_sequence` is 15 after sending
them. -/
def chFive : Channel :=
  { Channel.new 512 100 with
    next_server_sequence := 15
    send_queue :=
      [PendingPacket.new (.Data 10 []), PendingPacket.new (.Data 11 []),
       PendingPacket.new (.Data 12 []), PendingPacket.new (.Data 13 []),
       PendingPacket.new (.Data 14 [])] }

/-- A channel about to wrap its outbound sequence counter (claim C7,
scenario S6). -/
def chWrap : Channel :=
  { Channel.new 512 100 with next_server_sequence := 0xFFFE }

/-- The channel reached with `recency_limit = 0` after an out-of-order
arrival (counterexample to claim C8 as stated). -/
def chZeroWindow : Channel :=
  (((Channel.new 512 0).receive [.Data 5 []]).2.process_next 1 0).2

/-- A reachable channel with a non-empty reorder buffer (witness channel
for claim C8). -/
def chReordered : Channel :=
  (((Channel.new 512 100).receive [.Data 5 [1]]).2.process_next 1 0).2

/-- A channel whose next expected inbound sequence sits near the top of
the 16-bit range, so the recency window wraps (claim C3):
`max = 0xFFF0 +w 0x20 = 0x10`. -/
def chHighSeq : Channel :=
  { Channel.new 512 0x20 with next_client_sequence := 0xFFF0 }

/-- `k`-fold wrapping increment: the value of `next_server_sequence` after
drawing `k` fresh outbound sequence numbers. -/
def wrapIter : Nat → Nat → Nat
  | n, 0 => n
  | n, k + 1 => wrapIter (wrapAdd n 1) k

/-!  Association-list lemmas for the reorder buffer. -/

theorem mapLookup_mapInsert (k : Nat) (v : Packet) (m : List (Nat × Packet)) :
    mapLookup k (mapInsert k v m) = some v := by
  induction m with
  | nil => simp [mapInsert, mapLookup]
  | cons hd tl ih =>
    by_cases h : k = hd.1
    · simp [mapInsert, mapLookup, h]
    · simp [mapInsert, mapLookup, h, ih]

theorem mem_mapInsert {pr : Nat × Packet} {k : Nat} {v : Packet}
    {m : List (Nat × Packet)} (h : pr ∈ mapInsert k v m) :
    pr = (k, v) ∨ pr ∈ m := by
  induction m with
  | nil => simpa [mapInsert] using h
  | cons hd tl ih =>
    by_cases hk : k = hd.1
    · rcases (by simpa [mapInsert, hk] using h : pr = (k, v) ∨ pr ∈ tl) with h' | h'
      · exact Or.inl h'
      · exact Or.inr (List.mem_cons_of_mem _ h')
    · rcases (by simpa [mapInsert, hk] using h : pr = hd ∨ pr ∈ mapInsert k v tl) with h' | h'
      · exact Or.inr (h' ▸ List.mem_cons_self _ _)
      · rcases ih h' with h'' | h''
        · exact Or.inl h''
        · exact Or.inr (List.mem_cons_of_mem _ h'')

theorem mem_keys_mapInsert {a k : Nat} {v : Packet} {m : List (Nat × Packet)}
    (h : a ∈ (mapInsert k v m).map Prod.fst) :
    a = k ∨ a ∈ m.map Prod.fst := by
  rcases List.mem_map.1 h with ⟨pr, hpr, rfl⟩
  rcases mem_mapInsert hpr with h' | h'
  · exact Or.inl (by simp [h'])
  · exact Or.inr (List.mem_map_of_mem _ h')

theorem nodup_keys_mapInsert {k : Nat} {v : Packet} {m : List (Nat × Packet)}
    (h : (m.map Prod.fst).Nodup) :
    ((mapInsert k v m).map Prod.fst).Nodup := by
  induction m with
  | nil => simp [mapInsert]
  | cons hd tl ih =>
    rw [List.map_cons, List.nodup_cons] at h
    by_cases hk : k = hd.1
    · simpa [mapInsert, hk] using h
    · rw [show mapInsert k v (hd :: tl) = hd :: mapInsert k v tl by simp [mapInsert, hk],
        List.map_cons, List.nodup_cons]
      refine ⟨fun hmem => ?_, ih h.2⟩
      rcases mem_keys_mapInsert hmem with h' | h'
      · exact hk h'.symm
      · exact h.1 h'

theorem mem_mapRemove {pr : Nat × Packet} {k : Nat} {m : List (Nat × Packet)}
    (h : pr ∈ (mapRemove k m).2) : pr ∈ m := by
  induction m with
  | nil => simp [mapRemove] at h
  | cons hd tl ih =>
    by_cases hk : k = hd.1
    · exact List.mem_cons_of_mem _ (by simpa [mapRemove, hk] using h)
    · rcases (by simpa [mapRemove, hk] using h : pr = hd ∨ pr ∈ (mapRemove k tl).2) with h' | h'
      · exact h' ▸ List.mem_cons_self _ _
      · exact List.mem_cons_of_mem _ (ih h')

theorem mapRemove_key_ne {pr : Nat × Packet} {k : Nat} {m : List (Nat × Packet)}
    (hnd : (m.map Prod.fst).Nodup) (h : pr ∈ (mapRemove k m).2) : pr.1 ≠ k := by
  induction m with
  | nil => simp [mapRemove] at h
  | cons hd tl ih =>
    rw [List.map_cons, List.nodup_cons] at hnd
    by_cases hk : k = hd.1
    · have hmem : pr ∈ tl := by simpa [mapRemove, hk] using h
      intro hcontra
      exact hnd.1 (hk ▸ hcontra ▸ List.mem_map_of_mem Prod.fst hmem)
    · rcases (by simpa [mapRemove, hk] using h : pr = hd ∨ pr ∈ (mapRemove k tl).2) with h' | h'
      · subst h'; exact fun hcontra => hk hcontra.symm
      · exact ih hnd.2 h'

theorem nodup_keys_mapRemove {k : Nat} {m : List (Nat × Packet)}
    (hnd : (m.map Prod.fst).Nodup) : (((mapRemove k m).2).map Prod.fst).Nodup := by
  induction m with
  | nil => simp [mapRemove]
  | cons hd tl ih =>
    rw [List.map_cons, List.nodup_cons] at hnd
    by_cases hk : k = hd.1
    · simpa [mapRemove, hk] using hnd.2
    · rw [show (mapRemove k (hd :: tl)).2 = hd :: (mapRemove k tl).2 by simp [mapRemove, hk],
        List.map_cons, List.nodup_cons]
      refine ⟨fun hmem => ?_, ih hnd.2⟩
      rcases List.mem_map.1 hmem with ⟨pr, hpr, hfst⟩
      exact hnd.1 (hfst ▸ List.mem_map_of_mem Prod.fst (mem_mapRemove hpr))

theorem mapRemove_found {k : Nat} {v : Packet} {m : List (Nat × Packet)}
    (h : (mapRemove k m).1 = some v) : (k, v) ∈ m := by
  induction m with
  | nil => simp [mapRemove] at h
  | cons hd tl ih =>
    by_cases hk : k = hd.1
    · have hv : hd.2 = v := by simpa [mapRemove, hk] using h
      have : (k, v) = hd := by cases hd; simp_all
      exact this ▸ List.mem_cons_self _ _
    · exact List.mem_cons_of_mem _ (ih (by simpa [mapRemove, hk] using h))

/-!  Wrap-arithmetic lemmas for the recency window. -/

theorem inRecencyWindow_ne {n W s : Nat}
    (h : inRecencyWindow n W s = true) : s ≠ n := by
  simp only [inRecencyWindow, decide_eq_true_eq, wrapSub] at h
  omega

theorem save_for_reorder_recent {ch : Channel} {s : Nat}
    (hn : ch.next_client_sequence < 65536) (hs : s < 65536)
    (hW : 1 ≤ ch.recency_limit) (h : ch.save_for_reorder s = true) :
    inRecencyWindow ch.next_client_sequence ch.recency_limit s = true := by
  simp only [Channel.save_for_reorder, wrapAdd] at h
  simp only [inRecencyWindow, decide_eq_true_eq, wrapSub]
  by_cases hb : (ch.next_client_sequence + ch.recency_limit) % 65536 > ch.next_client_sequence
  · simp only [if_pos hb, decide_eq_true_eq] at h
    omega
  · simp only [if_neg hb, decide_eq_true_eq] at h
    omega

theorem inRecencyWindow_advance {n W s : Nat} (hs : s < 65536)
    (h : inRecencyWindow n W s = true) (hne : s ≠ wrapAdd n 1) :
    inRecencyWindow (wrapAdd n 1) W s = true := by
  simp only [inRecencyWindow, decide_eq_true_eq, wrapSub] at h ⊢
  simp only [wrapAdd] at hne ⊢
  omega

/-!  Preservation of the reorder-buffer invariant. -/

theorem wf_of_seq {p : Packet} {s : Nat} (h : p.sequence_number = some s)
    (hs : s < 65536) : p.wf = true := by
  simp [Packet.wf, h, hs]

theorem seq_lt_of_wf {p : Packet} {s : Nat} (h : p.sequence_number = some s)
    (hwf : p.wf = true) : s < 65536 := by
  simpa [Packet.wf, h] using hwf

theorem Inv_send_queue_only {W : Nat} {ch ch' : Channel} (h : Inv W ch)
    (h1 : ch'.recency_limit = ch.recency_limit)
    (h2 : ch'.next_client_sequence = ch.next_client_sequence)
    (h3 : ch'.reordered_packets = ch.reordered_packets)
    (h4 : ch'.receive_queue = ch.receive_queue) : Inv W ch' := by
  obtain ⟨hW, hn, hmem, hnd, hrq⟩ := h
  exact ⟨h1.trans hW, h2 ▸ hn, by rw [h3, h2]; exact hmem, h3 ▸ hnd, h4 ▸ hrq⟩

theorem Inv_acknowledge_one {W : Nat} {ch : Channel} (h : Inv W ch) (s : Nat) :
    Inv W (ch.acknowledge_one s) :=
  Inv_send_queue_only h rfl rfl rfl rfl

theorem Inv_acknowledge_all {W : Nat} {ch : Channel} (h : Inv W ch) (s : Nat) :
    Inv W (ch.acknowledge_all s) :=
  Inv_send_queue_only h rfl rfl rfl rfl

theorem Inv_process_session_request {W : Nat} {ch : Channel} (h : Inv W ch)
    (pv sid bs : Nat) (ap : String) (seed : Nat) :
    Inv W (ch.process_session_request pv sid bs ap seed) :=
  Inv_send_queue_only h rfl rfl rfl rfl

theorem Inv_process_ack {W : Nat} {ch : Channel} (h : Inv W ch) (s : Nat) :
    Inv W (ch.process_ack s) := by
  rw [Channel.process_ack]
  split
  · exact Inv_send_queue_only h rfl rfl rfl rfl
  · exact h

theorem Inv_process_ack_all {W : Nat} {ch : Channel} (h : Inv W ch) (s : Nat) :
    Inv W (ch.process_ack_all s) :=
  Inv_send_queue_only h rfl rfl rfl rfl

theorem Inv_process_packet {W : Nat} {ch : Channel} (h : Inv W ch)
    (p : Packet) (seed : Nat) : Inv W (ch.process_packet p seed) := by
  cases p with
  | SessionRequest pv sid bs ap => exact Inv_process_session_request h pv sid bs ap seed
  | Heartbeat => exact Inv_send_queue_only h rfl rfl rfl rfl
  | Ack s => exact Inv_process_ack h s
  | AckAll s => exact Inv_process_ack_all h s
  | SessionReply a b c d e f g => exact h
  | Disconnect a b => exact h
  | NetStatusRequest a b c d e f g h1 i => exact h
  | NetStatusReply a b c d e f g => exact h
  | Data a b => exact h
  | DataFragment a b => exact h
  | UnknownSender => exact h
  | RemapConnection a b => exact h

theorem Inv_processLoop {W : Nat} (hW : 1 ≤ W) :
    ∀ (fuel : Nat) (ch : Channel) (na : Bool) (ptp : Option Packet),
      Inv W ch → Inv W (Channel.processLoop fuel ch na ptp).1 := by
  intro fuel
  induction fuel with
  | zero => intro ch na ptp h; simpa [Channel.processLoop] using h
  | succ n ih =>
    intro ch na ptp h
    obtain ⟨hWeq, hn, hmem, hnd, hrq⟩ := h
    rcases hq : ch.receive_queue with _ | ⟨packet, rest⟩
    · simpa [Channel.processLoop, hq] using ⟨hWeq, hn, hmem, hnd, hrq⟩
    · have hwfp : packet.wf = true := hrq packet (by rw [hq]; exact List.mem_cons_self _ _)
      have hrest : ∀ p ∈ rest, p.wf = true := fun p hp =>
        hrq p (by rw [hq]; exact List.mem_cons_of_mem _ hp)
      have h1 : Inv W { ch with receive_queue := rest } := ⟨hWeq, hn, hmem, hnd, hrest⟩
      rcases hseq : packet.sequence_number with _ | s
      · -- packet without a sequence number: only the fragment state changes
        simp only [Channel.processLoop, hq, hseq]
        split
        · exact ih _ _ _ (Inv_send_queue_only h1 rfl rfl rfl rfl)
        · exact ih _ _ _ (Inv_send_queue_only h1 rfl rfl rfl rfl)
      · have hslt : s < 65536 := seq_lt_of_wf hseq hwfp
        by_cases hne : s = ch.next_client_sequence
        · -- in-order packet: advance the expected sequence, un-buffer the next one
          simp only [Channel.processLoop, hq, hseq, hne, ne_eq, not_true_eq_false,
            if_false, ite_false]
          have hn' : wrapAdd ch.next_client_sequence 1 < 65536 :=
            Nat.mod_lt _ (by omega)
          have hmem3 : ∀ pr ∈ (mapRemove (wrapAdd ch.next_client_sequence 1)
              ch.reordered_packets).2,
              pr.2.sequence_number = some pr.1 ∧ pr.1 < 65536 ∧
              inRecencyWindow (wrapAdd ch.next_client_sequence 1) W pr.1 = true := by
            intro pr hpr
            have hm := hmem pr (mem_mapRemove hpr)
            have hkne : pr.1 ≠ wrapAdd ch.next_client_sequence 1 :=
              mapRemove_key_ne hnd hpr
            exact ⟨hm.1, hm.2.1, inRecencyWindow_advance hm.2.1 hm.2.2 hkne⟩
          have hnd3 : (((mapRemove (wrapAdd ch.next_client_sequence 1)
              ch.reordered_packets).2).map Prod.fst).Nodup := nodup_keys_mapRemove hnd
          rcases hrem : (mapRemove (wrapAdd ch.next_client_sequence 1)
              ch.reordered_packets).1 with _ | np
          · simp only [hrem]
            split
            · exact ih _ _ _ ⟨hWeq, hn', hmem3, hnd3, hrest⟩
            · exact ih _ _ _ ⟨hWeq, hn', hmem3, hnd3, hrest⟩
          · have hnp : ((wrapAdd ch.next_client_sequence 1), np) ∈ ch.reordered_packets :=
              mapRemove_found hrem
            have hnpwf : np.wf = true := wf_of_seq (hmem _ hnp).1 hn'
            have hrq4 : ∀ p ∈ np :: rest, p.wf = true := by
              intro p hp
              rcases List.mem_cons.1 hp with h' | h'
              · exact h' ▸ hnpwf
              · exact hrest p h'
            simp only [hrem]
            split
            · exact ih _ _ _ ⟨hWeq, hn', hmem3, hnd3, hrq4⟩
            · exact ih _ _ _ ⟨hWeq, hn', hmem3, hnd3, hrq4⟩
        · -- out-of-order packet: possibly buffer it, always ack it
          simp only [Channel.processLoop, hq, hseq]
          rw [if_pos (by simpa using hne)]
          split
          · next hsave =>
            refine ih _ _ _ (Inv_acknowledge_one ?_ s)
            refine ⟨hWeq, hn, ?_, ?_, hrest⟩
            · intro pr hpr
              rcases mem_mapInsert hpr with h' | h'
              · subst h'
                refine ⟨hseq, hslt, ?_⟩
                have := save_for_reorder_recent hn hslt (hWeq ▸ hW) hsave
                simpa [hWeq] using this
              · exact hmem pr h'
            · exact nodup_keys_mapInsert hnd
          · exact ih _ _ _ (Inv_acknowledge_one h1 s)

/-- The channel coming out of `process_next` is the loop result, plus the
batch `AckAll` if one is due, plus the intra-protocol handling of the
completed packet if one emerged (unbundling affects only the returned
messages, never the channel). -/
theorem process_next_channel (ch : Channel) (count seed : Nat) :
    (ch.process_next count seed).2 =
      (match (Channel.processLoop count ch false none).2.2 with
        | some p =>
            (if (Channel.processLoop count ch false none).2.1 then
              (Channel.processLoop count ch false none).1.acknowledge_all
                (Channel.processLoop count ch false none).1.last_server_ack
            else (Channel.processLoop count ch false none).1).process_packet p seed
        | none =>
            if (Channel.processLoop count ch false none).2.1 then
              (Channel.processLoop count ch false none).1.acknowledge_all
                (Channel.processLoop count ch false none).1.last_server_ack
            else (Channel.processLoop count ch false none).1) := by
  rcases hp : (Channel.processLoop count ch false none).2.2 with _ | p
  · simp only [Channel.process_next, hp]
  · simp only [Channel.process_next, hp]
    clear hp
    generalize (if (Channel.processLoop count ch false none).2.1 = true then
        (Channel.processLoop count ch false none).1.acknowledge_all
          (Channel.processLoop count ch false none).1.last_server_ack
      else (Channel.processLoop count ch false none).1) = X
    clear ch count
    cases p <;> try with_reducible rfl
    rename_i seq d
    dsimp only
    rcases unbundle_reliable_data d with _ | u <;> with_reducible rfl

theorem Inv_receive {W : Nat} {ch : Channel} (h : Inv W ch) (ps : List Packet)
    (hwf : ∀ p ∈ ps, p.wf = true) : Inv W (ch.receive ps).2 := by
  obtain ⟨hWeq, hn, hmem, hnd, hrq⟩ := h
  refine ⟨hWeq, hn, hmem, hnd, ?_⟩
  intro p hp
  rcases List.mem_append.1 hp with h' | h'
  · exact hrq p h'
  · exact hwf p h'

theorem Inv_process_next {W : Nat} {ch : Channel} (hW : 1 ≤ W) (h : Inv W ch)
    (count seed : Nat) : Inv W (ch.process_next count seed).2 := by
  rw [process_next_channel]
  have h0 : Inv W (Channel.processLoop count ch false none).1 :=
    Inv_processLoop hW count ch false none h
  have h1 : Inv W (if (Channel.processLoop count ch false none).2.1 then
      (Channel.processLoop count ch false none).1.acknowledge_all
        (Channel.processLoop count ch false none).1.last_server_ack
    else (Channel.processLoop count ch false none).1) := by
    split
    · exact Inv_acknowledge_all h0 _
    · exact h0
  rcases (Channel.processLoop count ch false none).2.2 with _ | p
  · exact h1
  · exact Inv_process_packet h1 p seed

theorem sendDataFold_fields (ps : List DataPacket) (c : Channel) :
    (ps.foldl Channel.sendDataStep c).recency_limit = c.recency_limit ∧
    (ps.foldl Channel.sendDataStep c).next_client_sequence = c.next_client_sequence ∧
    (ps.foldl Channel.sendDataStep c).reordered_packets = c.reordered_packets ∧
    (ps.foldl Channel.sendDataStep c).receive_queue = c.receive_queue := by
  induction ps generalizing c with
  | nil => exact ⟨rfl, rfl, rfl, rfl⟩
  | cons hd tl ih =>
    simpa only [List.foldl_cons] using ih (Channel.sendDataStep c hd)

theorem Inv_send_data {W : Nat} {ch : Channel} (h : Inv W ch) (data : Bytes) :
    Inv W (ch.send_data data) := by
  obtain ⟨h1, h2, h3, h4⟩ :=
    sendDataFold_fields (fragment_data ch.buffer_size ch.session data) ch
  exact Inv_send_queue_only h h1 h2 h3 h4

theorem Inv_send_next {W : Nat} {ch : Channel} (h : Inv W ch) (count : Nat) :
    Inv W (ch.send_next count).2 :=
  Inv_send_queue_only h rfl rfl rfl rfl

theorem Inv_new (B W : Nat) : Inv W (Channel.new B W) := by
  refine ⟨rfl, ?_, ?_, ?_, ?_⟩ <;> simp [Channel.new]

theorem Reached_Inv {B W : Nat} {ch : Channel} (hW : 1 ≤ W)
    (h : Reached B W ch) : Inv W ch := by
  induction h with
  | init => exact Inv_new B W
  | receive ps hwf h ih => exact Inv_receive ih ps hwf
  | processNext count seed h ih => exact Inv_process_next hW ih count seed
  | sendData data h ih => exact Inv_send_data ih data
  | sendNext count h ih => exact Inv_send_next ih count

/-!  Claim theorems. -/

/-- C1 (code bug): after the handshake, with `Data(0, b"AB")` then
`Data(1, b"CD")` received in order, `process_next(2)` should deliver both
payloads in sender order, but the code keeps only the last completed
payload in `packet_to_process`, so it returns just `[b"CD"]`; the single
`AckAll(1)` is queued as the spec says.  This theorem evaluates the
embedded code at exactly the failing scenario. -/
theorem c1_in_order_delivery_code_bug :
    ((chS1.receive [.Data 0 [0x41, 0x42], .Data 1 [0x43, 0x44]]).2.process_next 2 0).1 =
      [[0x43, 0x44]] ∧
    ((chS1.receive [.Data 0 [0x41, 0x42], .Data 1 [0x43, 0x44]]).2.process_next 2 0).1 ≠
      [[0x41, 0x42], [0x43, 0x44]] ∧
    ((chS1.receive [.Data 0 [0x41, 0x42], .Data 1 [0x43, 0x44]]).2.process_next 2 0).2.send_queue =
      chS1.send_queue ++ [PendingPacket.new (.AckAll 1)] ∧
    ((chS1.receive [.Data 0 [0x41, 0x42], .Data 1 [0x43, 0x44]]).2.process_next 2 0).2.next_client_sequence = 2 := by
  decide

/-- C2 (code bug): after the handshake, with `Data(1, b"CD")` arriving
before `Data(0, b"AB")`, `process_next(2)` should deliver
`[b"AB", b"CD"]` and queue `Ack(1)` then `AckAll(1)`.  The code dequeues
only two packets, so the re-queued `Data(1)` is never processed in this
call: it returns `[b"AB"]` only and queues `Ack(1)` then `AckAll(0)`,
leaving `Data(1, b"CD")` at the front of the receive queue. -/
theorem c2_reorder_delivery_code_bug :
    ((chS1.receive [.Data 1 [0x43, 0x44], .Data 0 [0x41, 0x42]]).2.process_next 2 0).1 =
      [[0x41, 0x42]] ∧
    ((chS1.receive [.Data 1 [0x43, 0x44], .Data 0 [0x41, 0x42]]).2.process_next 2 0).1 ≠
      [[0x41, 0x42], [0x43, 0x44]] ∧
    ((chS1.receive [.Data 1 [0x43, 0x44], .Data 0 [0x41, 0x42]]).2.process_next 2 0).2.send_queue =
      chS1.send_queue ++ [PendingPacket.new (.Ack 1), PendingPacket.new (.AckAll 0)] ∧
    ((chS1.receive [.Data 1 [0x43, 0x44], .Data 0 [0x41, 0x42]]).2.process_next 2 0).2.receive_queue =
      [Packet.Data 1 [0x43, 0x44]] := by
  decide

/-- C3 (code bug): the recency test should accept exactly the half-open
window `(n, n + W]`, upper bound included, in the wrapped case as well.
At `n = 0xFFF0`, `W = 0x20` the wrapped upper bound is
`max = n +w W = 0x10` and `s = 0x10` is in the spec window, but
`save_for_reorder` compares `s < max` strictly in the wrapped branch and
rejects it, while `s = 0x0F` (inside) and `s = 0xFFF1` are accepted. -/
theorem c3_recency_upper_bound_code_bug :
    chHighSeq.save_for_reorder 0x10 = false ∧
    wrapAdd chHighSeq.next_client_sequence chHighSeq.recency_limit = 0x10 ∧
    inRecencyWindow chHighSeq.next_client_sequence chHighSeq.recency_limit 0x10 = true ∧
    chHighSeq.save_for_reorder 0x0F = true ∧
    chHighSeq.save_for_reorder 0xFFF1 = true := by
  decide

/-- C5: `process_ack_all` clears `needs_send` for exactly the queued
entries whose sequence number passes the wrap-safe `should_client_ack`
predicate with upper bound the acked sequence, leaving every packet and
every other flag unchanged; with five sequenced packets queued at 10..14
and `next_server_sequence = 15`, `AckAll(12)` retires 10, 11, 12 and
leaves 13, 14 pending. -/
theorem c5_ack_all_retires_window (ch : Channel) (s : Nat) :
    List.Forall₂ (fun pp pp' =>
      pp'.packet = pp.packet ∧
      (pp'.needs_send = false ↔ (pp.needs_send = false ∨
        ∃ p, pp.packet.sequence_number = some p ∧
          Channel.shouldClientAck ch.recency_limit ch.next_server_sequence s p = true)))
      ch.send_queue (ch.process_ack_all s).send_queue ∧
    (chFive.process_ack_all 12).send_queue =
      [⟨false, .Data 10 []⟩, ⟨false, .Data 11 []⟩, ⟨false, .Data 12 []⟩,
       ⟨true, .Data 13 []⟩, ⟨true, .Data 14 []⟩] := by
  refine ⟨?_, by decide⟩
  rw [Channel.process_ack_all]
  dsimp only
  rw [List.forall₂_map_right_iff]
  refine List.forall₂_same.2 ?_
  intro pp hpp
  rcases hseq : pp.packet.sequence_number with _ | p
  · simp [hseq]
  · simp only [hseq]
    by_cases hack : Channel.shouldClientAck ch.recency_limit ch.next_server_sequence s p = true
    · rw [if_pos hack]
      refine ⟨rfl, ?_⟩
      constructor
      · intro _
        exact Or.inr ⟨p, rfl, hack⟩
      · intro _
        rfl
    · rw [if_neg hack]
      refine ⟨rfl, ?_⟩
      constructor
      · exact fun h => Or.inl h
      · rintro (h | ⟨p', hp', hack'⟩)
        · exact h
        · have hpp' : p = p' := Option.some.inj hp'
          subst hpp'
          exact absurd hack' hack

/-- C6: processing a `SessionRequest` stores a session with
`crc_length = 3`, the freshly drawn `crc_seed`, compression and
encryption disabled, adopts the requested buffer size, and queues exactly
one `SessionReply` that echoes the session id and seed with crc length 3,
no compression, no encryption, buffer size 512 and protocol version 3. -/
theorem c6_session_request_reply (ch : Channel) (pv sid bs : Nat) (ap : String)
    (seed : Nat) :
    ch.process_packet (.SessionRequest pv sid bs ap) seed =
      ch.process_session_request pv sid bs ap seed ∧
    (ch.process_session_request pv sid bs ap seed).session =
      some ⟨sid, 3, seed, false, false⟩ ∧
    (ch.process_session_request pv sid bs ap seed).buffer_size = bs ∧
    (ch.process_session_request pv sid bs ap seed).send_queue =
      ch.send_queue ++ [PendingPacket.new (.SessionReply sid seed 3 false false 512 3)] ∧
    (ch.process_session_request pv sid bs ap seed).receive_queue = ch.receive_queue ∧
    (ch.process_session_request pv sid bs ap seed).reordered_packets = ch.reordered_packets ∧
    (ch.process_session_request pv sid bs ap seed).next_client_sequence = ch.next_client_sequence ∧
    (ch.process_session_request pv sid bs ap seed).next_server_sequence = ch.next_server_sequence ∧
    (ch.process_session_request pv sid bs ap seed).fragment_state = ch.fragment_state ∧
    (ch.process_session_request pv sid bs ap seed).recency_limit = ch.recency_limit :=
  ⟨rfl, rfl, rfl, rfl, rfl, rfl, rfl, rfl, rfl, rfl⟩

/-- C4 (counterexample): an out-of-order duplicate does NOT leave the
previously stored packet unchanged: with `Data(5, b"AB")` already in
`reordered_packets`, the arrival of `Data(5, b"CD")` replaces it
(`BTreeMap::insert` overwrites), though `Ack(5)` is still queued. -/
theorem c4_duplicate_reorder_counterexample :
    (chDup.process_next 1 0).2.reordered_packets = [(5, Packet.Data 5 [67, 68])] ∧
    mapLookup 5 (chDup.process_next 1 0).2.reordered_packets ≠
      some (Packet.Data 5 [65, 66]) ∧
    (chDup.process_next 1 0).2.send_queue = [PendingPacket.new (.Ack 5)] := by
  decide

/-- C4 (amended): when an out-of-order sequenced packet arrives whose
sequence number is already stored in `reordered_packets`, the new arrival
replaces the stored packet (last insertion wins), and the duplicate
arrival still causes an `Ack(s)` to be queued. -/
theorem c4_duplicate_reorder_amended (ch : Channel) (p : Packet) (s seed : Nat)
    (rest : List Packet)
    (hq : ch.receive_queue = p :: rest)
    (hseq : p.sequence_number = some s)
    (hne : s ≠ ch.next_client_sequence)
    (hsave : ch.save_for_reorder s = true) :
    (ch.process_next 1 seed).1 = [] ∧
    (ch.process_next 1 seed).2.reordered_packets = mapInsert s p ch.reordered_packets ∧
    mapLookup s ((ch.process_next 1 seed).2.reordered_packets) = some p ∧
    (ch.process_next 1 seed).2.send_queue = ch.send_queue ++ [PendingPacket.new (.Ack s)] := by
  have hne1 : s ≠ ({ ch with receive_queue := rest } : Channel).next_client_sequence := hne
  have hsave1 : ({ ch with receive_queue := rest } : Channel).save_for_reorder s = true :=
    hsave
  have hloop : Channel.processLoop 1 ch false none =
      (Channel.acknowledge_one
        { ch with
          receive_queue := rest
          reordered_packets := mapInsert s p ch.reordered_packets } s,
        false, none) := by
    simp only [Channel.processLoop, hq, hseq]
    rw [if_pos hne1, if_pos hsave1]
  have hpn : ch.process_next 1 seed =
      ([], Channel.acknowledge_one
        { ch with
          receive_queue := rest
          reordered_packets := mapInsert s p ch.reordered_packets } s) := by
    simp only [Channel.process_next, hloop, Bool.false_eq_true, if_false]
  rw [hpn]
  exact ⟨rfl, rfl, mapLookup_mapInsert s p ch.reordered_packets, rfl⟩

/-- Witness for the amended C4: the concrete duplicate scenario satisfies
every hypothesis and the replacement is observable through `mapLookup`. -/
theorem c4_duplicate_reorder_witness :
    chDup.receive_queue = [Packet.Data 5 [67, 68]] ∧
    (Packet.Data 5 [67, 68]).sequence_number = some 5 ∧
    5 ≠ chDup.next_client_sequence ∧
    chDup.save_for_reorder 5 = true ∧
    mapLookup 5 ((chDup.process_next 1 0).2.reordered_packets) =
      some (Packet.Data 5 [67, 68]) :=
  ⟨rfl, rfl, by decide, by decide,
    (c4_duplicate_reorder_amended chDup (Packet.Data 5 [67, 68]) 5 0 [] rfl rfl
      (by decide) (by decide)).2.2.1⟩

/-- Every chunk queued by `send_data` carries one fresh sequence number
drawn by post-increment: the queue grows by the consecutive block starting
at the old `next_server_sequence`, which itself advances once per chunk. -/
theorem sendDataFold_queue (ps : List DataPacket) (c : Channel) :
    (ps.foldl Channel.sendDataStep c).next_server_sequence =
      wrapIter c.next_server_sequence ps.length ∧
    (ps.foldl Channel.sendDataStep c).send_queue.map (fun pp => pp.packet.sequence_number) =
      c.send_queue.map (fun pp => pp.packet.sequence_number) ++
        (consecutiveSeqs c.next_server_sequence ps.length).map some := by
  induction ps generalizing c with
  | nil => simp [wrapIter, consecutiveSeqs]
  | cons hd tl ih =>
    obtain ⟨ih1, ih2⟩ := ih (Channel.sendDataStep c hd)
    constructor
    · rw [List.foldl_cons, ih1]
      rfl
    · rw [List.foldl_cons, ih2]
      cases hd <;>
        simp [Channel.sendDataStep, Channel.next_server_sequence_fn, consecutiveSeqs,
          Packet.sequence_number, PendingPacket.new, List.append_assoc]

/-- C7: `send_data` assigns each produced chunk a fresh outbound sequence
number by post-incrementing `next_server_sequence` with 16-bit wrap, so
the chunks of one payload occupy consecutive wrapped sequence numbers in
submission order; starting from `next_server_sequence = 0xFFFE`, three
more sends are assigned `0xFFFE, 0xFFFF, 0x0000`. -/
theorem c7_send_data_consecutive_sequences (ch : Channel) (data : Bytes) :
    (ch.send_data data).next_server_sequence =
      wrapIter ch.next_server_sequence
        (fragment_data ch.buffer_size ch.session data).length ∧
    (ch.send_data data).send_queue.map (fun pp => pp.packet.sequence_number) =
      ch.send_queue.map (fun pp => pp.packet.sequence_number) ++
        (consecutiveSeqs ch.next_server_sequence
          (fragment_data ch.buffer_size ch.session data).length).map some ∧
    (((chWrap.send_data [1]).send_data [2]).send_data [3]).send_queue.map
        (fun pp => pp.packet.sequence_number) = [some 0xFFFE, some 0xFFFF, some 0] ∧
    (((chWrap.send_data [1]).send_data [2]).send_data [3]).next_server_sequence = 1 ∧
    consecutiveSeqs 0xFFFE 3 = [0xFFFE, 0xFFFF, 0] := by
  obtain ⟨h1, h2⟩ := sendDataFold_queue (fragment_data ch.buffer_size ch.session data) ch
  exact ⟨h1, h2, by decide, by decide, by decide⟩

/-- C8 (counterexample): as stated the claim fails when
`recency_limit = 0`.  The channel `Channel::new(512, 0)` that receives the
out-of-order `Data(5)` and processes it is reachable, yet its reorder
buffer holds sequence 5, which is not in the (empty) recency window
`(0, 0]`: `save_for_reorder` takes its wrapped branch when
`max = n +w W = n` and accepts every `s ≠ n`. -/
theorem c8_reorder_window_counterexample :
    Reached 512 0 chZeroWindow ∧
    (5, Packet.Data 5 []) ∈ chZeroWindow.reordered_packets ∧
    inRecencyWindow chZeroWindow.next_client_sequence chZeroWindow.recency_limit 5 =
      false := by
  refine ⟨?_, by decide, by decide⟩
  exact Reached.processNext 1 0
    (Reached.receive [Packet.Data 5 []] (by decide) Reached.init)

/-- C8 (amended): provided `recency_limit ≥ 1`, every reachable channel
state keeps in `reordered_packets` only sequence numbers that are recent
relative to the current `next_client_sequence` and `recency_limit` (the
half-open wrap window), and never `next_client_sequence` itself; this is
preserved by every public operation since reachability is closed under
`receive`, `process_next`, `send_data` and `send_next`. -/
theorem c8_reorder_window_amended (B W : Nat) (ch : Channel) (hW : 1 ≤ W)
    (h : Reached B W ch) :
    ∀ pr ∈ ch.reordered_packets,
      inRecencyWindow ch.next_client_sequence ch.recency_limit pr.1 = true ∧
      pr.1 ≠ ch.next_client_sequence := by
  obtain ⟨hWeq, hn, hmem, hnd, hrq⟩ := Reached_Inv hW h
  intro pr hpr
  obtain ⟨hs, hlt, hwin⟩ := hmem pr hpr
  exact ⟨by rwa [hWeq], inRecencyWindow_ne hwin⟩

/-- Witness for the amended C8: a recency limit of 100 is at least 1, and
the reachable channel `chReordered` (which holds sequence 5 in its
reorder buffer) satisfies the invariant. -/
theorem c8_reorder_window_witness :
    1 ≤ 100 ∧
    (∀ pr ∈ chReordered.reordered_packets,
      inRecencyWindow chReordered.next_client_sequence chReordered.recency_limit
        pr.1 = true ∧
      pr.1 ≠ chReordered.next_client_sequence) :=
  ⟨by decide, c8_reorder_window_amended 512 100 chReordered (by decide)
    (Reached.processNext 1 0
      (Reached.receive [Packet.Data 5 [1]] (by decide) Reached.init))⟩

/-- The `packet_to_process` slot coming out of the batch loop is exactly
the last reassembler outcome of the batch (or the initial slot value when
the batch produced no outcome). -/
theorem processLoop_ptp (fuel : Nat) :
    ∀ (ch : Channel) (na : Bool) (ptp : Option Packet),
      (Channel.processLoop fuel ch na ptp).2.2 =
        (processOutcomes fuel ch).foldl (fun _ o => o) ptp := by
  induction fuel with
  | zero => intro ch na ptp; rfl
  | succ n ih =>
    intro ch na ptp
    rcases hq : ch.receive_queue with _ | ⟨packet, rest⟩
    · simp [Channel.processLoop, processOutcomes, hq]
    · rcases hseq : packet.sequence_number with _ | s
      · simp only [Channel.processLoop, processOutcomes, hq, hseq]
        split
        · rw [List.foldl_cons]
          exact ih _ _ _
        · exact ih _ _ _
      · simp only [Channel.processLoop, processOutcomes, hq, hseq]
        split
        · exact ih _ _ _
        · split
          · rw [List.foldl_cons]
            exact ih _ _ _
          · exact ih _ _ _

/-- The messages returned by `process_next` come from the final
`packet_to_process` only: the unbundled bytes when it is a completed
`Data` payload, nothing otherwise. -/
theorem process_next_messages (ch : Channel) (count seed : Nat) :
    (ch.process_next count seed).1 =
      (match (Channel.processLoop count ch false none).2.2 with
        | some (Packet.Data _ d) => (unbundle_reliable_data d).getD []
        | _ => []) := by
  rcases hp : (Channel.processLoop count ch false none).2.2 with _ | p
  · simp only [Channel.process_next, hp]
  · simp only [Channel.process_next, hp]
    cases p <;> try with_reducible rfl
    rename_i seq d
    dsimp only
    rcases unbundle_reliable_data d with _ | u
    · with_reducible show ([] : List Bytes) = Option.getD none []
      rfl
    · with_reducible show u = Option.getD (some u) []
      rfl

/-- C9: one `process_next` call returns the unbundled messages of at most
one completed `Data` payload, namely the last reassembler outcome of the
batch; payloads completed earlier in the same batch are neither returned
nor processed inside the protocol.  Concretely: two in-order `Data`
packets completed in one batch yield only the second one's payload, and
two `Heartbeat` packets dequeued in one batch trigger only one
`Heartbeat` reply. -/
theorem c9_single_payload_per_batch (ch : Channel) (count seed : Nat) :
    ((ch.process_next count seed).1 =
      (match lastOutcome (processOutcomes count ch) with
        | some (Packet.Data _ d) => (unbundle_reliable_data d).getD []
        | _ => [])) ∧
    processOutcomes 2 (chS1.receive [.Data 0 [1], .Data 1 [2]]).2 =
      [some (.Data 0 [1]), some (.Data 1 [2])] ∧
    ((chS1.receive [.Data 0 [1], .Data 1 [2]]).2.process_next 2 0).1 = [[2]] ∧
    (((Channel.new 512 100).receive [.Heartbeat, .Heartbeat]).2.process_next 2 0).1 = [] ∧
    (((Channel.new 512 100).receive [.Heartbeat, .Heartbeat]).2.process_next 2 0).2.send_queue =
      [PendingPacket.new .Heartbeat] := by
  refine ⟨?_, by decide, by decide, by decide, by decide⟩
  rw [process_next_messages, lastOutcome, processLoop_ptp]

/-- Splitting a queue of sendable entries at the dispatch cut: each entry
holding a non-sequenced packet `x` is either put on the wire now (if it
lies before the cut, where it is also marked dispatched) or stays sendable
(after the cut) — never both. -/
theorem count_take_marked (x : Packet) (hx : x.sequence_number = none) :
    ∀ (l : List PendingPacket) (k : Nat), (∀ pp ∈ l, pp.needs_send = true) →
      ((l.take k).map (fun pp => pp.packet)).count x +
        ((((l.take k).map Channel.markDispatched ++ l.drop k).filter
          (fun pp => pp.needs_send)).map (fun pp => pp.packet)).count x =
      (l.map (fun pp => pp.packet)).count x := by
  intro l
  induction l with
  | nil =>
    intro k _
    simp
  | cons pp t ih =>
    intro k hall
    have hpp : pp.needs_send = true := hall pp (List.mem_cons_self _ _)
    have htail : ∀ q ∈ t, q.needs_send = true := fun q hq =>
      hall q (List.mem_cons_of_mem _ hq)
    cases k with
    | zero =>
      have hfe : (pp :: t).filter (fun q => q.needs_send) = pp :: t :=
        List.filter_eq_self.2 (fun q hq => by rw [hall q hq])
      simp [hfe]
    | succ k' =>
      have ihk := ih k' htail
      rcases hseq2 : pp.packet.sequence_number with _ | q
      · -- the head is non-sequenced: it is dispatched and marked, so it
        -- drops out of the sendable remainder
        have hmark : Channel.markDispatched pp = { pp with needs_send := false } := by
          simp [Channel.markDispatched, hseq2]
        simp only [List.take_succ_cons, List.drop_succ_cons, List.map_cons,
          List.cons_append, List.count_cons, hmark, List.filter_cons]
        simp only [Bool.false_eq_true, if_false]
        omega
      · -- the head is sequenced: it cannot equal the non-sequenced x
        have hne : ¬(pp.packet = x) := by
          intro hcontra
          rw [hcontra, hx] at hseq2
          cases hseq2
        have hmark : Channel.markDispatched pp = pp := by
          simp [Channel.markDispatched, hseq2]
        simp only [List.take_succ_cons, List.drop_succ_cons, List.map_cons,
          List.cons_append, List.count_cons, hmark, List.filter_cons, hpp,
          if_true, List.map_cons]
        simp only [beq_iff_eq, hne, if_false]
        omega

/-- One `send_next` call conserves the sendable multiplicity of a
non-sequenced packet: every copy is either in this call's output or still
counted sendable afterwards. -/
theorem send_next_count (ch : Channel) (c : Nat) (x : Packet)
    (hx : x.sequence_number = none) :
    ((ch.send_next c).1).count x + countSendable x (ch.send_next c).2.send_queue =
      countSendable x ch.send_queue := by
  have hall : ∀ pp ∈ ch.send_queue.filter (fun pp => pp.needs_send),
      pp.needs_send = true := by
    intro pp hpp
    exact List.of_mem_filter hpp
  exact count_take_marked x hx (ch.send_queue.filter (fun pp => pp.needs_send))
    (min c (ch.send_queue.filter (fun pp => pp.needs_send)).length) hall

/-- Across any sequence of `send_next` calls, a non-sequenced packet is
put on the wire at most as many times as it was sendable at the start. -/
theorem sendNextRun_count (x : Packet) (hx : x.sequence_number = none) :
    ∀ (cs : List Nat) (ch : Channel),
      (sendNextRun cs ch).count x ≤ countSendable x ch.send_queue := by
  intro cs
  induction cs with
  | nil =>
    intro ch
    simp [sendNextRun]
  | cons c cs' ih =>
    intro ch
    rw [sendNextRun, List.count_append]
    have h1 := send_next_count ch c x hx
    have h2 := ih (ch.send_next c).2
    omega

/-- Appending a freshly queued acknowledgement raises its sendable
multiplicity by exactly one. -/
theorem countSendable_append_new (x : Packet) (q : List PendingPacket) :
    countSendable x (q ++ [PendingPacket.new x]) = countSendable x q + 1 := by
  simp [countSendable, PendingPacket.new, List.filter_append, List.count_append]

/-- C10: `Ack` and `AckAll` packets carry no sequence number, so
`acknowledge_one`/`acknowledge_all` queue one-shot entries: across any
sequence of `send_next` calls the acknowledgement is transmitted at most
once.  Concretely (mechanism): the first `send_next` that includes the ack
outputs it and clears its `needs_send` flag in place; the next `send_next`
drops it from the queue before collecting, so it is neither output again
nor kept. -/
theorem c10_ack_transmitted_once (ch : Channel) (s : Nat) (cs : List Nat)
    (h1 : countSendable (Packet.Ack s) ch.send_queue = 0)
    (h2 : countSendable (Packet.AckAll s) ch.send_queue = 0) :
    (Packet.Ack s).sequence_number = none ∧
    (Packet.AckAll s).sequence_number = none ∧
    (ch.acknowledge_one s).send_queue = ch.send_queue ++ [PendingPacket.new (.Ack s)] ∧
    (ch.acknowledge_all s).send_queue = ch.send_queue ++ [PendingPacket.new (.AckAll s)] ∧
    (sendNextRun cs (ch.acknowledge_one s)).count (Packet.Ack s) ≤ 1 ∧
    (sendNextRun cs (ch.acknowledge_all s)).count (Packet.AckAll s) ≤ 1 ∧
    (((Channel.new 512 100).acknowledge_one 7).send_next 5).1 = [Packet.Ack 7] ∧
    (((Channel.new 512 100).acknowledge_one 7).send_next 5).2.send_queue =
      [PendingPacket.mk false (Packet.Ack 7)] ∧
    ((((Channel.new 512 100).acknowledge_one 7).send_next 5).2.send_next 5).1 = [] ∧
    ((((Channel.new 512 100).acknowledge_one 7).send_next 5).2.send_next 5).2.send_queue =
      [] := by
  refine ⟨rfl, rfl, rfl, rfl, ?_, ?_, by decide, by decide, by decide, by decide⟩
  · have hone : countSendable (Packet.Ack s) (ch.acknowledge_one s).send_queue = 1 := by
      rw [Channel.acknowledge_one]
      dsimp only
      rw [countSendable_append_new, h1]
    have := sendNextRun_count (Packet.Ack s) rfl cs (ch.acknowledge_one s)
    omega
  · have hone : countSendable (Packet.AckAll s) (ch.acknowledge_all s).send_queue = 1 := by
      rw [Channel.acknowledge_all]
      dsimp only
      rw [countSendable_append_new, h2]
    have := sendNextRun_count (Packet.AckAll s) rfl cs (ch.acknowledge_all s)
    omega

/-- Witness for C10: a fresh channel has no sendable `Ack(7)` or
`AckAll(7)`, and after queueing one ack, two `send_next(5)` calls put it
on the wire exactly once. -/
theorem c10_ack_transmitted_once_witness :
    countSendable (Packet.Ack 7) (Channel.new 512 100).send_queue = 0 ∧
    countSendable (Packet.AckAll 7) (Channel.new 512 100).send_queue = 0 ∧
    (sendNextRun [5, 5] ((Channel.new 512 100).acknowledge_one 7)).count
      (Packet.Ack 7) ≤ 1 :=
  ⟨by decide, by decide,
    (c10_ack_transmitted_once (Channel.new 512 100) 7 [5, 5]
      (by decide) (by decide)).2.2.2.2.1⟩

end Cwa
